import Mathlib

/-!
Verification of the `hexstring` crate (src/lib.rs) against its specification.

The Rust code is shallowly embedded: a Rust `String`/`Cow<str>` is modelled as
its list of characters (`List Char`); `str::len`, which counts UTF-8 bytes, is
modelled by `utf8Len`; bytes (`u8`) are modelled as `Nat` (with `< 256` side
conditions where the claims quantify over byte sequences).  The `hex` crate is
the external collaborator of the spec (section 1): its `encode`, `encode_upper`,
`decode` and `decode_to_slice` routines are modelled from their documented
behaviour, at the character level (every string reaching them through a checked
constructor is ASCII, where characters and bytes coincide).
-/

/-- Case of a hexadecimal string: `enum Case { Lower, Upper }` from src/lib.rs. -/
inductive Case
  | Lower
  | Upper
deriving DecidableEq, Repr

/-- Errors of construction and decoding, mirroring `hex::FromHexError`
(re-exported by src/lib.rs as `Error`): an invalid character with its 0-based
index, an odd input length, or a decoded-length mismatch for fixed-size decode. -/
inductive FromHexError
  | InvalidHexCharacter (c : Char) (index : Nat)
  | OddLength
  | InvalidStringLength
deriving DecidableEq, Repr

deriving instance DecidableEq for Except

/-- Number of bytes of the UTF-8 encoding of one character (Rust `char::len_utf8`). -/
def charUtf8Size (c : Char) : Nat :=
  if c.toNat ≤ 0x7F then 1
  else if c.toNat ≤ 0x7FF then 2
  else if c.toNat ≤ 0xFFFF then 3
  else 4

/-- Rust `str::len`: the number of bytes of the UTF-8 encoding of a string. -/
def utf8Len (s : List Char) : Nat :=
  (s.map charUtf8Size).sum

/-- The per-character validity test of `HexString::new` (src/lib.rs lines 116-119):
`matches!(c, '0'..='9' | 'a'..='f')` for `Case::Lower` and
`matches!(c, '0'..='9' | 'A'..='F')` for `Case::Upper`.  Rust `char` range
patterns compare Unicode scalar values, here `Char.toNat`. -/
def isAllowedChar : Case → Char → Bool
  | Case.Lower, c =>
    (decide ('0'.toNat ≤ c.toNat) && decide (c.toNat ≤ '9'.toNat)) ||
    (decide ('a'.toNat ≤ c.toNat) && decide (c.toNat ≤ 'f'.toNat))
  | Case.Upper, c =>
    (decide ('0'.toNat ≤ c.toNat) && decide (c.toNat ≤ '9'.toNat)) ||
    (decide ('A'.toNat ≤ c.toNat) && decide (c.toNat ≤ 'F'.toNat))

/-- The scan `s.chars().enumerate().find(|(_, c)| not allowed)` of
`HexString::new`, started at index `i`: returns the first (index, character)
pair whose character fails `isAllowedChar`. -/
def findInvalid (cs : Case) : Nat → List Char → Option (Nat × Char)
  | _, [] => none
  | i, c :: rest => if isAllowedChar cs c then findInvalid cs (i + 1) rest else some (i, c)

/-- `HexString::new` (src/lib.rs lines 109-124): reject odd (UTF-8 byte) length
with `OddLength`, then reject the first character outside the digit class of the
case with `InvalidHexCharacter`, else store the text unchanged. -/
def HexString.new (cs : Case) (s : List Char) : Except FromHexError (List Char) :=
  if utf8Len s % 2 ≠ 0 then .error .OddLength
  else
    match findInvalid cs 0 s with
    | some (i, c) => .error (.InvalidHexCharacter c i)
    | none => .ok s

/-- Rust `u8::to_ascii_uppercase` lifted to characters: `String::make_ascii_uppercase`
maps every byte in `b'a'..=b'z'` to `b - 32` and leaves all other bytes unchanged
(UTF-8 bytes of non-ASCII characters are ≥ 0x80, so the character-level map is
the same function). -/
def asciiUpperChar (c : Char) : Char :=
  if 'a'.toNat ≤ c.toNat ∧ c.toNat ≤ 'z'.toNat then Char.ofNat (c.toNat - 32) else c

/-- Rust `u8::to_ascii_lowercase` lifted to characters (see `asciiUpperChar`). -/
def asciiLowerChar (c : Char) : Char :=
  if 'A'.toNat ≤ c.toNat ∧ c.toNat ≤ 'Z'.toNat then Char.ofNat (c.toNat + 32) else c

/-- `LowerHexString::to_uppercase` (src/lib.rs lines 139-145): take the owned
string and `make_ascii_uppercase` it, wrapping the result unchecked. -/
def LowerHexString.to_uppercase (s : List Char) : List Char :=
  s.map asciiUpperChar

/-- `UpperHexString::to_lowercase` (src/lib.rs lines 152-158): take the owned
string and `make_ascii_lowercase` it, wrapping the result unchecked. -/
def UpperHexString.to_lowercase (s : List Char) : List Char :=
  s.map asciiLowerChar

/-- Digit alphabet used by `hex::encode` (`Case::Lower`) and `hex::encode_upper`
(`Case::Upper`): table `0123456789abcdef` resp. `0123456789ABCDEF`. -/
def hexTable : Case → List Char
  | Case.Lower => "0123456789abcdef".toList
  | Case.Upper => "0123456789ABCDEF".toList

/-- One byte of `hex` encoding: two characters, high nibble (`b >> 4`) first,
low nibble (`b & 0xf`) second, looked up in the case's digit alphabet. -/
def encodeByte (cs : Case) (b : Nat) : List Char :=
  [(hexTable cs).getD (b / 16) '0', (hexTable cs).getD (b % 16) '0']

/-- `From<&[u8]> for HexString<C>` (src/lib.rs lines 161-170): `hex::encode` for
`Case::Lower`, `hex::encode_upper` for `Case::Upper`, wrapped unchecked. -/
def HexString.from_bytes (cs : Case) (bytes : List Nat) : List Char :=
  bytes.flatMap (encodeByte cs)

/-- The `hex` crate's `val` function: numeric value of one hex digit character,
accepting both cases (`A-F`, then `a-f`, then `0-9`), failing with
`InvalidHexCharacter` carrying the character and the given index. -/
def hexVal (c : Char) (idx : Nat) : Except FromHexError Nat :=
  if 'A'.toNat ≤ c.toNat ∧ c.toNat ≤ 'F'.toNat then .ok (c.toNat - 'A'.toNat + 10)
  else if 'a'.toNat ≤ c.toNat ∧ c.toNat ≤ 'f'.toNat then .ok (c.toNat - 'a'.toNat + 10)
  else if '0'.toNat ≤ c.toNat ∧ c.toNat ≤ '9'.toNat then .ok (c.toNat - '0'.toNat)
  else .error (.InvalidHexCharacter c idx)

/-- The pair loop of `hex::decode` / `hex::decode_to_slice`: the i-th output
byte is `val(data[2i], 2i) << 4 | val(data[2i+1], 2i+1)`, scanning left to
right and stopping at the first invalid character. -/
def decodePairs : Nat → List Char → Except FromHexError (List Nat)
  | _, [] => .ok []
  | i, c1 :: c2 :: rest => do
    let hi ← hexVal c1 (2 * i)
    let lo ← hexVal c2 (2 * i + 1)
    let tail ← decodePairs (i + 1) rest
    pure ((hi * 16 + lo) :: tail)
  | _, [_] => .error .OddLength

/-- `hex::decode`, used by `From<HexString<C>> for Vec<u8>` (src/lib.rs lines
184-192, where its result is unwrapped): odd input length fails with
`OddLength`, otherwise the pairs are decoded. -/
def decode (s : List Char) : Except FromHexError (List Nat) :=
  if s.length % 2 ≠ 0 then .error .OddLength
  else decodePairs 0 s

/-- `hex::decode_to_slice` into a slice of length `n`, used by
`TryFrom<HexString<C>> for [u8; N]` (src/lib.rs lines 194-202): odd input
length fails with `OddLength`, an input of decoded length different from `n`
fails with `InvalidStringLength`, otherwise the pairs are decoded. -/
def decode_to_slice (n : Nat) (s : List Char) : Except FromHexError (List Nat) :=
  if s.length % 2 ≠ 0 then .error .OddLength
  else if s.length / 2 ≠ n then .error .InvalidStringLength
  else decodePairs 0 s

/-- `TryFrom<String> for HexString<C>` (src/lib.rs lines 214-220, the serde
deserialization entry point): delegates to `HexString::new`. -/
def HexString.try_from (cs : Case) (s : List Char) : Except FromHexError (List Char) :=
  HexString.new cs s

/-- The validation predicate enforced by `HexString::new`: even UTF-8 byte
length and every character in the digit class of the case. -/
def validFor (cs : Case) (s : List Char) : Bool :=
  (utf8Len s % 2 == 0) && s.all (isAllowedChar cs)

/-- Membership in the letter range of the other case (`A-F` for a lowercase
string, `a-f` for an uppercase one), used to state invariant I2. -/
def otherCaseLetter : Case → Char → Bool
  | Case.Lower, c => decide ('A'.toNat ≤ c.toNat) && decide (c.toNat ≤ 'F'.toNat)
  | Case.Upper, c => decide ('a'.toNat ≤ c.toNat) && decide (c.toNat ≤ 'f'.toNat)

/-- Invariants I1 and I2 of the spec, for one string: even length (both in
characters and in UTF-8 bytes), every character in the case's digit class, and
no character from the other case's letter range. -/
def invariantHolds (cs : Case) (s : List Char) : Prop :=
  utf8Len s % 2 = 0 ∧ s.length % 2 = 0 ∧
    s.all (isAllowedChar cs) = true ∧ s.all (fun c => !otherCaseLetter cs c) = true

/-! Character-level facts. -/

/-- Characters with equal scalar values are equal. -/
theorem char_eq_of_toNat_eq {c d : Char} (h : c.toNat = d.toNat) : c = d := by
  have h1 := Char.ofNat_toNat c
  have h2 := Char.ofNat_toNat d
  rw [← h1, ← h2, h]

/-- On valid scalar values below the surrogate range, `Char.ofNat` inverts `toNat`. -/
theorem toNat_ofNat_of_lt {n : Nat} (h : n < 55296) : (Char.ofNat n).toNat = n := by
  have hv : n.isValidChar := Or.inl h
  simp only [Char.ofNat, hv, dite_true]
  rcases hv with h' | h'
  · rfl
  · rfl

/-- Numeric characterization of the `Case::Lower` digit class. -/
theorem isAllowedChar_lower_iff (c : Char) :
    isAllowedChar Case.Lower c = true ↔
      (48 ≤ c.toNat ∧ c.toNat ≤ 57) ∨ (97 ≤ c.toNat ∧ c.toNat ≤ 102) := by
  simp [isAllowedChar]

/-- Numeric characterization of the `Case::Upper` digit class. -/
theorem isAllowedChar_upper_iff (c : Char) :
    isAllowedChar Case.Upper c = true ↔
      (48 ≤ c.toNat ∧ c.toNat ≤ 57) ∨ (65 ≤ c.toNat ∧ c.toNat ≤ 70) := by
  simp [isAllowedChar]

/-- Every allowed character is a one-byte (ASCII) character in UTF-8. -/
theorem charUtf8Size_eq_one (cs : Case) (c : Char) (h : isAllowedChar cs c = true) :
    charUtf8Size c = 1 := by
  have h' : c.toNat ≤ 127 := by
    cases cs
    · rcases (isAllowedChar_lower_iff c).1 h with h' | h' <;> omega
    · rcases (isAllowedChar_upper_iff c).1 h with h' | h' <;> omega
  unfold charUtf8Size
  rw [if_pos (by omega)]

theorem utf8Len_nil : utf8Len [] = 0 := rfl

theorem utf8Len_cons (c : Char) (s : List Char) :
    utf8Len (c :: s) = charUtf8Size c + utf8Len s := by
  simp [utf8Len]

/-- On strings of allowed characters the UTF-8 byte length is the character count. -/
theorem utf8Len_eq_length (cs : Case) (s : List Char) (h : s.all (isAllowedChar cs) = true) :
    utf8Len s = s.length := by
  induction s with
  | nil => rfl
  | cons c t ih =>
    simp only [List.all_cons, Bool.and_eq_true] at h
    rw [utf8Len_cons, charUtf8Size_eq_one cs c h.1, ih h.2, List.length_cons]
    omega

/-- Numeric form of `asciiUpperChar`. -/
theorem asciiUpperChar_eq (c : Char) :
    asciiUpperChar c =
      if 97 ≤ c.toNat ∧ c.toNat ≤ 122 then Char.ofNat (c.toNat - 32) else c := by
  simp [asciiUpperChar]

/-- Numeric form of `asciiLowerChar`. -/
theorem asciiLowerChar_eq (c : Char) :
    asciiLowerChar c =
      if 65 ≤ c.toNat ∧ c.toNat ≤ 90 then Char.ofNat (c.toNat + 32) else c := by
  simp [asciiLowerChar]

/-- Scalar value of `asciiUpperChar`. -/
theorem asciiUpperChar_toNat (c : Char) :
    (asciiUpperChar c).toNat =
      if 97 ≤ c.toNat ∧ c.toNat ≤ 122 then c.toNat - 32 else c.toNat := by
  rw [asciiUpperChar_eq]
  split_ifs with h
  · exact toNat_ofNat_of_lt (by omega)
  · rfl

/-- Scalar value of `asciiLowerChar`. -/
theorem asciiLowerChar_toNat (c : Char) :
    (asciiLowerChar c).toNat =
      if 65 ≤ c.toNat ∧ c.toNat ≤ 90 then c.toNat + 32 else c.toNat := by
  rw [asciiLowerChar_eq]
  split_ifs with h
  · exact toNat_ofNat_of_lt (by omega)
  · rfl

/-- Uppercasing a lowercase-allowed character yields an uppercase-allowed one
and lowercasing it back restores it. -/
theorem asciiUpperChar_allowed (c : Char) (h : isAllowedChar Case.Lower c = true) :
    isAllowedChar Case.Upper (asciiUpperChar c) = true ∧ asciiLowerChar (asciiUpperChar c) = c := by
  have hu := asciiUpperChar_toNat c
  rcases (isAllowedChar_lower_iff c).1 h with h' | h'
  · rw [if_neg (by omega)] at hu
    have hl := asciiLowerChar_toNat (asciiUpperChar c)
    rw [hu, if_neg (by omega)] at hl
    exact ⟨(isAllowedChar_upper_iff _).2 (by omega), char_eq_of_toNat_eq (by omega)⟩
  · rw [if_pos (by omega)] at hu
    have hl := asciiLowerChar_toNat (asciiUpperChar c)
    rw [hu, if_pos (by omega)] at hl
    exact ⟨(isAllowedChar_upper_iff _).2 (by omega), char_eq_of_toNat_eq (by omega)⟩

/-- Lowercasing an uppercase-allowed character yields a lowercase-allowed one
and uppercasing it back restores it. -/
theorem asciiLowerChar_allowed (c : Char) (h : isAllowedChar Case.Upper c = true) :
    isAllowedChar Case.Lower (asciiLowerChar c) = true ∧ asciiUpperChar (asciiLowerChar c) = c := by
  have hl := asciiLowerChar_toNat c
  rcases (isAllowedChar_upper_iff c).1 h with h' | h'
  · rw [if_neg (by omega)] at hl
    have hu := asciiUpperChar_toNat (asciiLowerChar c)
    rw [hl, if_neg (by omega)] at hu
    exact ⟨(isAllowedChar_lower_iff _).2 (by omega), char_eq_of_toNat_eq (by omega)⟩
  · rw [if_pos (by omega)] at hl
    have hu := asciiUpperChar_toNat (asciiLowerChar c)
    rw [hl, if_pos (by omega)] at hu
    exact ⟨(isAllowedChar_lower_iff _).2 (by omega), char_eq_of_toNat_eq (by omega)⟩

/-! Facts about the validation scan and `HexString::new`. -/

/-- The scan returns `none` exactly on all-allowed strings. -/
theorem findInvalid_none_iff (cs : Case) :
    ∀ (s : List Char) (k : Nat), findInvalid cs k s = none ↔ s.all (isAllowedChar cs) = true
  | [], k => by simp [findInvalid]
  | c :: t, k => by
    by_cases h : isAllowedChar cs c = true
    · simp [findInvalid, h, findInvalid_none_iff cs t (k + 1)]
    · simp [findInvalid, h]

/-- What a successful scan reports: the offset `i - k` points at the returned
character, the character is not allowed, and everything before it is allowed. -/
theorem findInvalid_some_spec (cs : Case) :
    ∀ (s : List Char) (k i : Nat) (c : Char), findInvalid cs k s = some (i, c) →
      k ≤ i ∧ s[i - k]? = some c ∧ isAllowedChar cs c = false ∧
        (s.take (i - k)).all (isAllowedChar cs) = true
  | [], k, i, c => by simp [findInvalid]
  | d :: t, k, i, c => by
    intro h
    by_cases hd : isAllowedChar cs d = true
    · rw [findInvalid, if_pos hd] at h
      obtain ⟨hki, hget, hbad, hpre⟩ := findInvalid_some_spec cs t (k + 1) i c h
      have hik : i - k = (i - (k + 1)) + 1 := by omega
      refine ⟨by omega, ?_, hbad, ?_⟩
      · rw [hik, List.getElem?_cons_succ]
        exact hget
      · rw [hik, List.take_succ_cons]
        simp [hd, hpre]
    · rw [findInvalid, if_neg hd] at h
      cases Option.some.inj h
      simp [Bool.not_eq_true] at hd
      simp [hd]

/-- Converse of `findInvalid_some_spec`: a position whose character is not
allowed while everything before it is allowed is what the scan reports. -/
theorem findInvalid_some_of (cs : Case) :
    ∀ (s : List Char) (j : Nat) (c : Char) (k : Nat), s[j]? = some c →
      isAllowedChar cs c = false → (s.take j).all (isAllowedChar cs) = true →
      findInvalid cs k s = some (k + j, c)
  | [], j, c, k => by simp
  | d :: t, 0, c, k => by
    intro h1 h2 _
    simp at h1
    subst h1
    simp [findInvalid, h2]
  | d :: t, j + 1, c, k => by
    intro h1 h2 h3
    rw [List.getElem?_cons_succ] at h1
    rw [List.take_succ_cons] at h3
    simp only [List.all_cons, Bool.and_eq_true] at h3
    have ih := findInvalid_some_of cs t j c (k + 1) h1 h2 h3.2
    have hk : k + (j + 1) = (k + 1) + j := by omega
    rw [findInvalid, if_pos h3.1, hk]
    exact ih

/-- Full characterization of success of `HexString::new`: the input is returned
unchanged, and success happens exactly on even byte length with every character
allowed. -/
theorem new_eq_ok_iff (cs : Case) (s t : List Char) :
    HexString.new cs s = .ok t ↔
      t = s ∧ utf8Len s % 2 = 0 ∧ s.all (isAllowedChar cs) = true := by
  unfold HexString.new
  by_cases he : utf8Len s % 2 = 0
  · rw [if_neg (by omega)]
    cases hf : findInvalid cs 0 s with
    | none =>
      have hall := (findInvalid_none_iff cs s 0).1 hf
      simp [hall, he]
      constructor
      · intro h; cases h; rfl
      · intro h; rw [h]
    | some ic =>
      obtain ⟨i, c⟩ := ic
      constructor
      · intro h; cases h
      · rintro ⟨rfl, -, hall⟩
        rw [(findInvalid_none_iff cs _ 0).2 hall] at hf
        cases hf
  · rw [if_pos (by omega)]
    constructor
    · intro h; cases h
    · rintro ⟨-, h, -⟩; exact absurd h he

/-- Full characterization of the `OddLength` failure of `HexString::new`. -/
theorem new_eq_oddLength_iff (cs : Case) (s : List Char) :
    HexString.new cs s = .error FromHexError.OddLength ↔ utf8Len s % 2 ≠ 0 := by
  unfold HexString.new
  by_cases he : utf8Len s % 2 = 0
  · rw [if_neg (by omega)]
    cases hf : findInvalid cs 0 s with
    | none => simp [he]
    | some ic =>
      obtain ⟨i, c⟩ := ic
      simp [he]
  · rw [if_pos (by omega)]
    simp [he]

/-- Full characterization of the `InvalidHexCharacter` failure of
`HexString::new`: even byte length, the reported 0-based index holds the
reported character, that character is outside the digit class, and every
character before it is inside it. -/
theorem new_eq_invalidChar_iff (cs : Case) (s : List Char) (c : Char) (i : Nat) :
    HexString.new cs s = .error (FromHexError.InvalidHexCharacter c i) ↔
      utf8Len s % 2 = 0 ∧ s[i]? = some c ∧ isAllowedChar cs c = false ∧
        (s.take i).all (isAllowedChar cs) = true := by
  unfold HexString.new
  by_cases he : utf8Len s % 2 = 0
  · rw [if_neg (by omega)]
    cases hf : findInvalid cs 0 s with
    | none =>
      have hall := (findInvalid_none_iff cs s 0).1 hf
      simp only [List.all_eq_true] at hall
      constructor
      · intro h; cases h
      · rintro ⟨-, hget, hbad, -⟩
        have hmem : c ∈ s := List.getElem?_mem hget
        rw [hall c hmem] at hbad
        cases hbad
    | some ic =>
      obtain ⟨i0, c0⟩ := ic
      obtain ⟨-, hget, hbad, hpre⟩ := findInvalid_some_spec cs s 0 i0 c0 hf
      rw [Nat.sub_zero] at hget hpre
      constructor
      · intro h
        cases h
        exact ⟨he, hget, hbad, hpre⟩
      · rintro ⟨-, hget', hbad', hpre'⟩
        have := findInvalid_some_of cs s i c 0 hget' hbad' hpre'
        rw [Nat.zero_add] at this
        rw [this] at hf
        cases hf
        rfl
  · rw [if_pos (by omega)]
    constructor
    · intro h; cases h
    · rintro ⟨h, -⟩; exact absurd h he

/-! Facts about encoding and decoding. -/

/-- Every character of a digit alphabet (and the lookup default) is in the digit
class of its case. -/
theorem hexTable_getD_allowed (cs : Case) (n : Nat) :
    isAllowedChar cs ((hexTable cs).getD n '0') = true := by
  by_cases h : n < 16
  · cases cs <;> interval_cases n <;> decide
  · have h16 : (hexTable cs).length = 16 := by cases cs <;> rfl
    rw [List.getD_eq_default _ _ (by omega)]
    cases cs <;> decide

/-- Decoding a digit alphabet entry recovers the nibble, at any index. -/
theorem hexVal_getD (cs : Case) (n : Nat) (h : n < 16) (i : Nat) :
    hexVal ((hexTable cs).getD n '0') i = .ok n := by
  cases cs <;> interval_cases n <;> rfl

theorem from_bytes_nil (cs : Case) : HexString.from_bytes cs [] = [] := rfl

theorem from_bytes_cons (cs : Case) (b : Nat) (t : List Nat) :
    HexString.from_bytes cs (b :: t) =
      (hexTable cs).getD (b / 16) '0' :: (hexTable cs).getD (b % 16) '0' ::
        HexString.from_bytes cs t := by
  simp [HexString.from_bytes, encodeByte]

/-- Encoding produces two characters per byte. -/
theorem from_bytes_length (cs : Case) (B : List Nat) :
    (HexString.from_bytes cs B).length = 2 * B.length := by
  induction B with
  | nil => rfl
  | cons b t ih =>
    rw [from_bytes_cons]
    simp [ih]
    omega

/-- Every character of an encoding is in the digit class of its case. -/
theorem from_bytes_all_allowed (cs : Case) (B : List Nat) :
    (HexString.from_bytes cs B).all (isAllowedChar cs) = true := by
  induction B with
  | nil => rfl
  | cons b t ih =>
    rw [from_bytes_cons]
    simp only [List.all_cons, Bool.and_eq_true]
    exact ⟨hexTable_getD_allowed cs _, hexTable_getD_allowed cs _, ih⟩

/-- Numeric form of `hexVal`. -/
theorem hexVal_eq (c : Char) (i : Nat) :
    hexVal c i =
      if 65 ≤ c.toNat ∧ c.toNat ≤ 70 then .ok (c.toNat - 65 + 10)
      else if 97 ≤ c.toNat ∧ c.toNat ≤ 102 then .ok (c.toNat - 97 + 10)
      else if 48 ≤ c.toNat ∧ c.toNat ≤ 57 then .ok (c.toNat - 48)
      else .error (.InvalidHexCharacter c i) := by
  simp [hexVal]

/-- A character of the digit class always decodes. -/
theorem hexVal_of_allowed (cs : Case) (c : Char) (h : isAllowedChar cs c = true) (i : Nat) :
    ∃ v, hexVal c i = .ok v := by
  have hr : (48 ≤ c.toNat ∧ c.toNat ≤ 57) ∨ (97 ≤ c.toNat ∧ c.toNat ≤ 102) ∨
      (65 ≤ c.toNat ∧ c.toNat ≤ 70) := by
    cases cs
    · rcases (isAllowedChar_lower_iff c).1 h with h' | h' <;> omega
    · rcases (isAllowedChar_upper_iff c).1 h with h' | h' <;> omega
  rw [hexVal_eq]
  by_cases hA : 65 ≤ c.toNat ∧ c.toNat ≤ 70
  · rw [if_pos hA]; exact ⟨_, rfl⟩
  · rw [if_neg hA]
    by_cases ha : 97 ≤ c.toNat ∧ c.toNat ≤ 102
    · rw [if_pos ha]; exact ⟨_, rfl⟩
    · rw [if_neg ha, if_pos (by omega)]; exact ⟨_, rfl⟩

/-- The pair loop inverts the encoding, for any start index. -/
theorem decodePairs_from_bytes (cs : Case) :
    ∀ (B : List Nat) (i : Nat), (∀ b ∈ B, b < 256) →
      decodePairs i (HexString.from_bytes cs B) = .ok B
  | [], _, _ => rfl
  | b :: t, i, hb => by
    have hb0 : b < 256 := hb b (by simp)
    have hbb : b / 16 * 16 + b % 16 = b := by omega
    have ih := decodePairs_from_bytes cs t (i + 1) (fun x hx => hb x (by simp [hx]))
    rw [from_bytes_cons]
    simp only [decodePairs, hexVal_getD cs (b / 16) (by omega) (2 * i),
      hexVal_getD cs (b % 16) (by omega) (2 * i + 1), ih]
    exact congrArg (fun x => Except.ok (x :: t)) hbb

/-- The pair loop succeeds on any even-length string of digit-class characters,
producing one byte per character pair. -/
theorem decodePairs_ok (cs : Case) :
    ∀ (s : List Char) (i : Nat), s.all (isAllowedChar cs) = true → s.length % 2 = 0 →
      ∃ B, decodePairs i s = .ok B ∧ B.length = s.length / 2
  | [], _, _, _ => ⟨[], rfl, rfl⟩
  | [_], _, _, hlen => by simp at hlen
  | c1 :: c2 :: rest, i, hall, hlen => by
    simp only [List.all_cons, Bool.and_eq_true] at hall
    obtain ⟨v1, hv1⟩ := hexVal_of_allowed cs c1 hall.1 (2 * i)
    obtain ⟨v2, hv2⟩ := hexVal_of_allowed cs c2 hall.2.1 (2 * i + 1)
    have hlen' : rest.length % 2 = 0 := by
      simp only [List.length_cons] at hlen
      omega
    obtain ⟨B, hB, hBlen⟩ := decodePairs_ok cs rest (i + 1) hall.2.2 hlen'
    refine ⟨(v1 * 16 + v2) :: B, ?_, ?_⟩
    · simp only [decodePairs, hv1, hv2, hB]
      rfl
    · simp only [List.length_cons, hBlen]
      omega

/-- `hex::decode` inverts the encoding. -/
theorem decode_from_bytes (cs : Case) (B : List Nat) (h : ∀ b ∈ B, b < 256) :
    decode (HexString.from_bytes cs B) = .ok B := by
  have hlen : (HexString.from_bytes cs B).length % 2 = 0 := by
    rw [from_bytes_length]
    omega
  simp [decode, hlen]
  exact decodePairs_from_bytes cs B 0 h

/-- `hex::decode` succeeds on every string passing validation, producing one
byte per character pair. -/
theorem decode_ok_of_valid (cs : Case) (s : List Char) (h : validFor cs s = true) :
    ∃ B, decode s = .ok B ∧ B.length = s.length / 2 := by
  simp only [validFor, Bool.and_eq_true, beq_iff_eq] at h
  have hlen : s.length % 2 = 0 := by
    rw [← utf8Len_eq_length cs s h.2]
    exact h.1
  obtain ⟨B, hB, hBl⟩ := decodePairs_ok cs s 0 h.2 hlen
  exact ⟨B, by simp [decode, hlen, hB], hBl⟩

/-! Interaction of case conversion with validity and decoding. -/

/-- Uppercasing commutes with digit decoding on lowercase-allowed characters. -/
theorem hexVal_asciiUpperChar (c : Char) (h : isAllowedChar Case.Lower c = true) (i : Nat) :
    hexVal (asciiUpperChar c) i = hexVal c i := by
  have hu := asciiUpperChar_toNat c
  rcases (isAllowedChar_lower_iff c).1 h with h' | h'
  · have hc : asciiUpperChar c = c := by
      rw [asciiUpperChar_eq, if_neg (by omega)]
    rw [hc]
  · rw [if_pos (by omega)] at hu
    rw [hexVal_eq, hexVal_eq, hu]
    rw [if_pos (by omega), if_neg (by omega), if_pos (by omega)]
    congr 1

/-- Lowercasing commutes with digit decoding on uppercase-allowed characters. -/
theorem hexVal_asciiLowerChar (c : Char) (h : isAllowedChar Case.Upper c = true) (i : Nat) :
    hexVal (asciiLowerChar c) i = hexVal c i := by
  have hl := asciiLowerChar_toNat c
  rcases (isAllowedChar_upper_iff c).1 h with h' | h'
  · have hc : asciiLowerChar c = c := by
      rw [asciiLowerChar_eq, if_neg (by omega)]
    rw [hc]
  · rw [if_pos (by omega)] at hl
    rw [hexVal_eq, hexVal_eq, hl]
    rw [if_neg (by omega), if_pos (by omega), if_pos (by omega)]
    congr 1

/-- The pair loop is unchanged by uppercasing a lowercase-valid string. -/
theorem decodePairs_map_asciiUpperChar :
    ∀ (s : List Char) (i : Nat), s.all (isAllowedChar Case.Lower) = true →
      decodePairs i (s.map asciiUpperChar) = decodePairs i s
  | [], _, _ => rfl
  | [_], _, _ => rfl
  | c1 :: c2 :: rest, i, hall => by
    simp only [List.all_cons, Bool.and_eq_true] at hall
    simp only [List.map_cons, decodePairs,
      hexVal_asciiUpperChar c1 hall.1 (2 * i), hexVal_asciiUpperChar c2 hall.2.1 (2 * i + 1),
      decodePairs_map_asciiUpperChar rest (i + 1) hall.2.2]

/-- The pair loop is unchanged by lowercasing an uppercase-valid string. -/
theorem decodePairs_map_asciiLowerChar :
    ∀ (s : List Char) (i : Nat), s.all (isAllowedChar Case.Upper) = true →
      decodePairs i (s.map asciiLowerChar) = decodePairs i s
  | [], _, _ => rfl
  | [_], _, _ => rfl
  | c1 :: c2 :: rest, i, hall => by
    simp only [List.all_cons, Bool.and_eq_true] at hall
    simp only [List.map_cons, decodePairs,
      hexVal_asciiLowerChar c1 hall.1 (2 * i), hexVal_asciiLowerChar c2 hall.2.1 (2 * i + 1),
      decodePairs_map_asciiLowerChar rest (i + 1) hall.2.2]

/-- Uppercasing preserves validity, switching the case tag. -/
theorem to_uppercase_valid (s : List Char) (h : validFor Case.Lower s = true) :
    validFor Case.Upper (LowerHexString.to_uppercase s) = true := by
  simp only [validFor, Bool.and_eq_true, beq_iff_eq] at h ⊢
  have hall : (LowerHexString.to_uppercase s).all (isAllowedChar Case.Upper) = true := by
    unfold LowerHexString.to_uppercase
    rw [List.all_map, List.all_eq_true]
    intro c hc
    exact (asciiUpperChar_allowed c (List.all_eq_true.1 h.2 c hc)).1
  refine ⟨?_, hall⟩
  rw [utf8Len_eq_length Case.Upper _ hall]
  unfold LowerHexString.to_uppercase
  rw [List.length_map, ← utf8Len_eq_length Case.Lower s h.2]
  exact h.1

/-- Lowercasing preserves validity, switching the case tag. -/
theorem to_lowercase_valid (s : List Char) (h : validFor Case.Upper s = true) :
    validFor Case.Lower (UpperHexString.to_lowercase s) = true := by
  simp only [validFor, Bool.and_eq_true, beq_iff_eq] at h ⊢
  have hall : (UpperHexString.to_lowercase s).all (isAllowedChar Case.Lower) = true := by
    unfold UpperHexString.to_lowercase
    rw [List.all_map, List.all_eq_true]
    intro c hc
    exact (asciiLowerChar_allowed c (List.all_eq_true.1 h.2 c hc)).1
  refine ⟨?_, hall⟩
  rw [utf8Len_eq_length Case.Lower _ hall]
  unfold UpperHexString.to_lowercase
  rw [List.length_map, ← utf8Len_eq_length Case.Upper s h.2]
  exact h.1

/-- Lowercasing after uppercasing restores a lowercase-valid string. -/
theorem to_lowercase_to_uppercase (s : List Char) (h : s.all (isAllowedChar Case.Lower) = true) :
    UpperHexString.to_lowercase (LowerHexString.to_uppercase s) = s := by
  unfold UpperHexString.to_lowercase LowerHexString.to_uppercase
  rw [List.map_map]
  have hid : ∀ c ∈ s, (asciiLowerChar ∘ asciiUpperChar) c = id c := by
    intro c hc
    exact (asciiUpperChar_allowed c (List.all_eq_true.1 h c hc)).2
  rw [List.map_congr_left hid, List.map_id]

/-- Uppercasing after lowercasing restores an uppercase-valid string. -/
theorem to_uppercase_to_lowercase (s : List Char) (h : s.all (isAllowedChar Case.Upper) = true) :
    LowerHexString.to_uppercase (UpperHexString.to_lowercase s) = s := by
  unfold UpperHexString.to_lowercase LowerHexString.to_uppercase
  rw [List.map_map]
  have hid : ∀ c ∈ s, (asciiUpperChar ∘ asciiLowerChar) c = id c := by
    intro c hc
    exact (asciiLowerChar_allowed c (List.all_eq_true.1 h c hc)).2
  rw [List.map_congr_left hid, List.map_id]

/-- A valid string satisfies the spec's invariants I1 and I2. -/
theorem invariantHolds_of_valid (cs : Case) (s : List Char) (h : validFor cs s = true) :
    invariantHolds cs s := by
  simp only [validFor, Bool.and_eq_true, beq_iff_eq] at h
  have hlen : s.length % 2 = 0 := by
    rw [← utf8Len_eq_length cs s h.2]
    exact h.1
  refine ⟨h.1, hlen, h.2, ?_⟩
  rw [List.all_eq_true]
  intro c hc
  have hc' := List.all_eq_true.1 h.2 c hc
  cases cs
  · rcases (isAllowedChar_lower_iff c).1 hc' with h' | h' <;>
      simp [otherCaseLetter] <;> omega
  · rcases (isAllowedChar_upper_iff c).1 hc' with h' | h' <;>
      simp [otherCaseLetter] <;> omega

/-- The encoding of any byte sequence is valid for its case. -/
theorem from_bytes_valid (cs : Case) (B : List Nat) :
    validFor cs (HexString.from_bytes cs B) = true := by
  simp only [validFor, Bool.and_eq_true, beq_iff_eq]
  refine ⟨?_, from_bytes_all_allowed cs B⟩
  rw [utf8Len_eq_length cs _ (from_bytes_all_allowed cs B), from_bytes_length]
  omega

/-! Claim theorems. -/

/-- Claim C1, counterexample to the frozen wording: the input "aé" has even
character count (2) and contains a character outside the lowercase digit class,
yet `HexString::new` fails with `OddLength` — its parity pre-check uses the
UTF-8 byte length (3 here), not the character count — instead of the
`InvalidCharacter` failure the claim requires. -/
theorem C1_counterexample :
    ("aé".toList).length % 2 = 0 ∧
    ('é' ∈ "aé".toList ∧ isAllowedChar Case.Lower 'é' = false) ∧
    HexString.new Case.Lower ("aé".toList) = .error FromHexError.OddLength := by
  decide

/-- Claim C1 (amended: the even-count hypothesis is on the UTF-8 byte length,
which `HexString::new` actually tests; it equals the character count on ASCII
input): for every input of even byte length, construction fails with
`InvalidCharacter{character, index}` exactly when some character lies outside
the digit class of the case, reporting the first such character in
left-to-right scan order with its 0-based position; strings containing letters
of the other case's range are never accepted. -/
theorem C1_invalid_character (cs : Case) (s : List Char) (h : utf8Len s % 2 = 0) :
    (HexString.new cs s = .ok s ↔ s.all (isAllowedChar cs) = true) ∧
    (∀ i c, HexString.new cs s = .error (FromHexError.InvalidHexCharacter c i) ↔
      (s[i]? = some c ∧ isAllowedChar cs c = false ∧
        (s.take i).all (isAllowedChar cs) = true)) ∧
    ((∃ c ∈ s, otherCaseLetter cs c = true) → ∀ t, HexString.new cs s ≠ .ok t) := by
  refine ⟨?_, ?_, ?_⟩
  · rw [new_eq_ok_iff]
    constructor
    · intro hh
      exact hh.2.2
    · intro hh
      exact ⟨rfl, h, hh⟩
  · intro i c
    rw [new_eq_invalidChar_iff]
    constructor
    · intro hh
      exact ⟨hh.2.1, hh.2.2.1, hh.2.2.2⟩
    · intro hh
      exact ⟨h, hh.1, hh.2.1, hh.2.2⟩
  · rintro ⟨c, hc, hother⟩ t hok
    rw [new_eq_ok_iff] at hok
    have hall := List.all_eq_true.1 hok.2.2 c hc
    cases cs
    · rcases (isAllowedChar_lower_iff c).1 hall with h1 | h1 <;>
        simp [otherCaseLetter] at hother <;> omega
    · rcases (isAllowedChar_upper_iff c).1 hall with h1 | h1 <;>
        simp [otherCaseLetter] at hother <;> omega

/-- Witness for C1: the spec's concrete example `new("abcdZ109")` as Lower
fails with `InvalidCharacter{'Z', 4}`, derived through the claim theorem. -/
theorem C1_witness :
    utf8Len ("abcdZ109".toList) % 2 = 0 ∧
    HexString.new Case.Lower ("abcdZ109".toList) =
      .error (FromHexError.InvalidHexCharacter 'Z' 4) := by
  refine ⟨by decide, ?_⟩
  exact ((C1_invalid_character Case.Lower ("abcdZ109".toList) (by decide)).2.1 4 'Z').mpr
    (by decide)

/-- Claim C2, counterexample to the frozen wording: the input "é" has odd
character count (1), yet `HexString::new` does not fail with `OddLength` — its
parity check is on the UTF-8 byte length, which is 2 here — but with
`InvalidCharacter{'é', 0}` from the character scan. -/
theorem C2_counterexample :
    ("é".toList).length % 2 = 1 ∧
    HexString.new Case.Lower ("é".toList) =
      .error (FromHexError.InvalidHexCharacter 'é' 0) := by
  decide

/-- Claim C2 (amended: the parity is that of the UTF-8 byte length tested by
`HexString::new`, which equals the character count on ASCII input): every input
of odd byte length fails with `OddLength` regardless of its characters, in
particular even when invalid characters are present, showing the check precedes
the per-character scan. -/
theorem C2_odd_length (cs : Case) (s : List Char) (h : utf8Len s % 2 = 1) :
    HexString.new cs s = .error FromHexError.OddLength := by
  unfold HexString.new
  rw [if_pos (by omega)]

/-- Witness for C2: "ab!" (odd length, and with a character invalid for every
case) fails with `OddLength`, derived through the claim theorem. -/
theorem C2_witness :
    utf8Len ("ab!".toList) % 2 = 1 ∧ isAllowedChar Case.Lower '!' = false ∧
    HexString.new Case.Lower ("ab!".toList) = .error FromHexError.OddLength :=
  ⟨by decide, by decide, C2_odd_length Case.Lower ("ab!".toList) (by decide)⟩

/-- Claim C3: for every byte sequence B and both cases, decoding the encoding
of B yields B again. -/
theorem C3_round_trip (cs : Case) (B : List Nat) (h : ∀ b ∈ B, b < 256) :
    decode (HexString.from_bytes cs B) = .ok B :=
  decode_from_bytes cs B h

/-- Witness for C3 at B = [42, 15, 5], both cases. -/
theorem C3_witness :
    decode (HexString.from_bytes Case.Lower [42, 15, 5]) = .ok [42, 15, 5] ∧
    decode (HexString.from_bytes Case.Upper [42, 15, 5]) = .ok [42, 15, 5] :=
  ⟨C3_round_trip Case.Lower [42, 15, 5] (by decide),
   C3_round_trip Case.Upper [42, 15, 5] (by decide)⟩

/-- Claim C4: every value produced by a validity-preserving operation — `new`
on accepted input, `from` on any byte sequence, `to_uppercase`/`to_lowercase`
on a valid instance — satisfies invariants I1 (even length) and I2 (every
character in the case's digit class, none from the other case's letter range). -/
theorem C4_invariants :
    (∀ cs s t, HexString.new cs s = .ok t → invariantHolds cs t) ∧
    (∀ cs B, invariantHolds cs (HexString.from_bytes cs B)) ∧
    (∀ s, validFor Case.Lower s = true →
      invariantHolds Case.Upper (LowerHexString.to_uppercase s)) ∧
    (∀ s, validFor Case.Upper s = true →
      invariantHolds Case.Lower (UpperHexString.to_lowercase s)) := by
  refine ⟨?_, ?_, ?_, ?_⟩
  · intro cs s t hok
    rw [new_eq_ok_iff] at hok
    obtain ⟨rfl, h1, h2⟩ := hok
    exact invariantHolds_of_valid cs _ (by simp [validFor, h1, h2])
  · intro cs B
    exact invariantHolds_of_valid cs _ (from_bytes_valid cs B)
  · intro s hs
    exact invariantHolds_of_valid _ _ (to_uppercase_valid s hs)
  · intro s hs
    exact invariantHolds_of_valid _ _ (to_lowercase_valid s hs)

/-- Witness for C4, one instance per construction path. -/
theorem C4_witness :
    invariantHolds Case.Lower ("ab04ff".toList) ∧
    invariantHolds Case.Upper (HexString.from_bytes Case.Upper [171, 4, 255]) ∧
    invariantHolds Case.Upper (LowerHexString.to_uppercase ("aabbccddee".toList)) ∧
    invariantHolds Case.Lower (UpperHexString.to_lowercase ("AABBCCDDEE".toList)) :=
  ⟨C4_invariants.1 Case.Lower ("ab04ff".toList) ("ab04ff".toList) (by decide),
   C4_invariants.2.1 Case.Upper [171, 4, 255],
   C4_invariants.2.2.1 ("aabbccddee".toList) (by decide),
   C4_invariants.2.2.2 ("AABBCCDDEE".toList) (by decide)⟩

/-- Claim C5: for every valid lowercase instance, `to_uppercase` is value-equal
to the uppercase instance directly constructed (via `new`) from the uppercased
digits, and symmetrically for `to_lowercase`; digit characters 0-9 pass through
unchanged while letter digits map into the other case's alphabet, and the
round trip through both conversions restores the original content. -/
theorem C5_case_conversion :
    (∀ s, validFor Case.Lower s = true →
      HexString.new Case.Upper (LowerHexString.to_uppercase s) =
        .ok (LowerHexString.to_uppercase s) ∧
      UpperHexString.to_lowercase (LowerHexString.to_uppercase s) = s) ∧
    (∀ s, validFor Case.Upper s = true →
      HexString.new Case.Lower (UpperHexString.to_lowercase s) =
        .ok (UpperHexString.to_lowercase s) ∧
      LowerHexString.to_uppercase (UpperHexString.to_lowercase s) = s) ∧
    (∀ c, 48 ≤ c.toNat → c.toNat ≤ 57 → asciiUpperChar c = c ∧ asciiLowerChar c = c) ∧
    (∀ c, 97 ≤ c.toNat → c.toNat ≤ 102 →
      65 ≤ (asciiUpperChar c).toNat ∧ (asciiUpperChar c).toNat ≤ 70) ∧
    (∀ c, 65 ≤ c.toNat → c.toNat ≤ 70 →
      97 ≤ (asciiLowerChar c).toNat ∧ (asciiLowerChar c).toNat ≤ 102) := by
  refine ⟨?_, ?_, ?_, ?_, ?_⟩
  · intro s hs
    have hv := to_uppercase_valid s hs
    simp only [validFor, Bool.and_eq_true, beq_iff_eq] at hv hs
    exact ⟨(new_eq_ok_iff _ _ _).2 ⟨rfl, hv.1, hv.2⟩, to_lowercase_to_uppercase s hs.2⟩
  · intro s hs
    have hv := to_lowercase_valid s hs
    simp only [validFor, Bool.and_eq_true, beq_iff_eq] at hv hs
    exact ⟨(new_eq_ok_iff _ _ _).2 ⟨rfl, hv.1, hv.2⟩, to_uppercase_to_lowercase s hs.2⟩
  · intro c h1 h2
    constructor
    · rw [asciiUpperChar_eq, if_neg (by omega)]
    · rw [asciiLowerChar_eq, if_neg (by omega)]
  · intro c h1 h2
    rw [asciiUpperChar_toNat, if_pos (by omega)]
    omega
  · intro c h1 h2
    rw [asciiLowerChar_toNat, if_pos (by omega)]
    omega

/-- Witness for C5: the spec's concrete example, `new("aabbccddee")` (Lower)
uppercases to the value directly constructed from "AABBCCDDEE", and converting
back restores the original. -/
theorem C5_witness :
    HexString.new Case.Upper ("AABBCCDDEE".toList) =
      .ok (LowerHexString.to_uppercase ("aabbccddee".toList)) ∧
    UpperHexString.to_lowercase (LowerHexString.to_uppercase ("aabbccddee".toList)) =
      "aabbccddee".toList := by
  have h := C5_case_conversion.1 ("aabbccddee".toList) (by decide)
  have he : LowerHexString.to_uppercase ("aabbccddee".toList) = "AABBCCDDEE".toList := by
    decide
  constructor
  · have h1 := h.1
    rw [he] at h1
    rw [he]
    exact h1
  · exact h.2

/-- Claim C6: on a valid instance the fixed-size conversion to N bytes succeeds
with exactly the decoded bytes when the character count is 2N and fails with
the length-mismatch error (`InvalidStringLength`) otherwise; in particular the
encoding of a byte array of length N converts back to it, and to any other
target length M it fails with the length-mismatch error. -/
theorem C6_fixed_size (cs : Case) :
    (∀ s n, validFor cs s = true → s.length = 2 * n →
      ∃ B, decode s = .ok B ∧ decode_to_slice n s = .ok B ∧ B.length = n) ∧
    (∀ s n, validFor cs s = true → s.length ≠ 2 * n →
      decode_to_slice n s = .error FromHexError.InvalidStringLength) ∧
    (∀ B, (∀ b ∈ B, b < 256) →
      decode_to_slice B.length (HexString.from_bytes cs B) = .ok B) ∧
    (∀ B m, m ≠ B.length →
      decode_to_slice m (HexString.from_bytes cs B) =
        .error FromHexError.InvalidStringLength) := by
  have hvalid_even : ∀ s, validFor cs s = true → s.length % 2 = 0 := by
    intro s hs
    simp only [validFor, Bool.and_eq_true, beq_iff_eq] at hs
    rw [← utf8Len_eq_length cs s hs.2]
    exact hs.1
  refine ⟨?_, ?_, ?_, ?_⟩
  · intro s n hs hlen
    obtain ⟨B, hB, hBl⟩ := decode_ok_of_valid cs s hs
    have he := hvalid_even s hs
    refine ⟨B, hB, ?_, by omega⟩
    unfold decode at hB
    rw [if_neg (by omega)] at hB
    unfold decode_to_slice
    rw [if_neg (by omega), if_neg (by omega)]
    exact hB
  · intro s n hs hlen
    have he := hvalid_even s hs
    unfold decode_to_slice
    rw [if_neg (by omega), if_pos (by omega)]
  · intro B hB
    have hlen := from_bytes_length cs B
    unfold decode_to_slice
    rw [if_neg (by omega), if_neg (by omega)]
    exact decodePairs_from_bytes cs B 0 hB
  · intro B m hm
    have hlen := from_bytes_length cs B
    unfold decode_to_slice
    rw [if_neg (by omega), if_pos (by omega)]

/-- Witness for C6 at "142a020a": converting to 4 bytes succeeds with the
decoded bytes, converting to 3 bytes fails with the length-mismatch error. -/
theorem C6_witness :
    decode_to_slice 4 ("142a020a".toList) = .ok [20, 42, 2, 10] ∧
    decode_to_slice 3 ("142a020a".toList) = .error FromHexError.InvalidStringLength := by
  constructor
  · obtain ⟨B, hB, hslice, hlen⟩ :=
      (C6_fixed_size Case.Lower).1 ("142a020a".toList) 4 (by decide) (by decide)
    have hd : decode ("142a020a".toList) = .ok [20, 42, 2, 10] := by decide
    rw [hd] at hB
    cases hB
    exact hslice
  · exact (C6_fixed_size Case.Lower).2.1 ("142a020a".toList) 3 (by decide) (by decide)

/-- Claim C7: for every instance built via `new` (accepted input) or via `from`
(any byte sequence), the decode used by `Vec::from` returns `Ok` — the unwrap
in src/lib.rs line 190 never panics — with one byte per two characters. -/
theorem C7_into_bytes_infallible :
    (∀ cs s t, HexString.new cs s = .ok t →
      ∃ B, decode t = .ok B ∧ B.length = t.length / 2) ∧
    (∀ cs B, (∀ b ∈ B, b < 256) →
      decode (HexString.from_bytes cs B) = .ok B ∧
        B.length = (HexString.from_bytes cs B).length / 2) := by
  constructor
  · intro cs s t hok
    rw [new_eq_ok_iff] at hok
    obtain ⟨rfl, h1, h2⟩ := hok
    exact decode_ok_of_valid cs _ (by simp [validFor, h1, h2])
  · intro cs B hB
    refine ⟨decode_from_bytes cs B hB, ?_⟩
    rw [from_bytes_length]
    omega

/-- Witness for C7 on both construction paths. -/
theorem C7_witness :
    (∃ B, decode ("2a1a02".toList) = .ok B ∧ B.length = ("2a1a02".toList).length / 2) ∧
    decode (HexString.from_bytes Case.Upper [1, 2, 3]) = .ok [1, 2, 3] := by
  constructor
  · exact C7_into_bytes_infallible.1 Case.Lower ("2a1a02".toList) ("2a1a02".toList) (by decide)
  · exact (C7_into_bytes_infallible.2 Case.Upper [1, 2, 3] (by decide)).1

/-- Claim C8: encoding any byte sequence succeeds (the encoder is a total
function), yields exactly two characters per byte with the high nibble first
using the alphabet of the case, every character lies in the case's digit
class, and the spec's example [42, 15, 5] encodes to "2a0f05" / "2A0F05". -/
theorem C8_encode (cs : Case) (B : List Nat) (b : Nat) (rest : List Nat) :
    (HexString.from_bytes cs B).length = 2 * B.length ∧
    (HexString.from_bytes cs B).all (isAllowedChar cs) = true ∧
    HexString.from_bytes cs (b :: rest) =
      (hexTable cs).getD (b / 16) '0' :: (hexTable cs).getD (b % 16) '0' ::
        HexString.from_bytes cs rest ∧
    HexString.from_bytes Case.Lower [42, 15, 5] = "2a0f05".toList ∧
    HexString.from_bytes Case.Upper [42, 15, 5] = "2A0F05".toList :=
  ⟨from_bytes_length cs B, from_bytes_all_allowed cs B, from_bytes_cons cs b rest,
    by decide, by decide⟩

/-- Claim C9: the deserialization entry point `TryFrom<String>` (used by the
serde derive) returns exactly the result of the validated constructor `new` on
every input — same successes, same errors. -/
theorem C9_try_from_eq_new (cs : Case) (s : List Char) :
    HexString.try_from cs s = HexString.new cs s := rfl

/-- Claim C10: case conversion preserves the decoded byte sequence of a valid
instance, in both directions. -/
theorem C10_conversion_preserves_bytes :
    (∀ s, validFor Case.Lower s = true →
      decode (LowerHexString.to_uppercase s) = decode s) ∧
    (∀ s, validFor Case.Upper s = true →
      decode (UpperHexString.to_lowercase s) = decode s) := by
  constructor
  · intro s hs
    simp only [validFor, Bool.and_eq_true, beq_iff_eq] at hs
    unfold decode LowerHexString.to_uppercase
    rw [List.length_map]
    by_cases hl : s.length % 2 = 0
    · rw [if_neg (by omega), if_neg (by omega)]
      exact decodePairs_map_asciiUpperChar s 0 hs.2
    · rw [if_pos (by omega), if_pos (by omega)]
  · intro s hs
    simp only [validFor, Bool.and_eq_true, beq_iff_eq] at hs
    unfold decode UpperHexString.to_lowercase
    rw [List.length_map]
    by_cases hl : s.length % 2 = 0
    · rw [if_neg (by omega), if_neg (by omega)]
      exact decodePairs_map_asciiLowerChar s 0 hs.2
    · rw [if_pos (by omega), if_pos (by omega)]

/-- Witness for C10 at "aabbccddee" / "AABBCCDDEE". -/
theorem C10_witness :
    decode (LowerHexString.to_uppercase ("aabbccddee".toList)) =
      decode ("aabbccddee".toList) ∧
    decode (UpperHexString.to_lowercase ("AABBCCDDEE".toList)) =
      decode ("AABBCCDDEE".toList) :=
  ⟨C10_conversion_preserves_bytes.1 ("aabbccddee".toList) (by decide),
   C10_conversion_preserves_bytes.2 ("AABBCCDDEE".toList) (by decide)⟩
